import Mathlib

/-
  Verification of the cereal binary archive core
  (include/cereal/archives/binary.hpp).

  The model: an output stream is a byte buffer together with a put
  position and an optional capacity bound on the buffer length; the
  capacity models a sink that stops accepting appended bytes (disk
  full), which is how a short write arises.  A byte that overwrites an
  existing position always succeeds; a byte appended at the end
  succeeds only while the buffer length is below the capacity.  An
  input stream is a byte buffer with a get position; a read yields at
  most the remaining bytes.

  Arithmetic scalar values are modelled by their in-memory byte
  representation (a list of bytes of length sizeof(T)): the C++ code
  copies these bytes verbatim in both directions and never interprets
  them, so bit-identity of values is exactly equality of the byte
  lists.
-/

namespace Cereal

/-- Model of std::ostream as used by the archive: a byte buffer, the
put position, and an optional capacity bound of the sink. -/
structure OStream where
  buf : List Nat
  pos : Nat
  cap : Option Nat
  deriving Repr, DecidableEq

/-- Whether the sink still accepts an appended byte. -/
def OStream.capOk (s : OStream) : Bool :=
  match s.cap with
  | none => true
  | some k => s.buf.length < k

/-- Model of streambuf sputc: overwrite inside the buffer always
succeeds; appending at the end succeeds while below capacity;
otherwise the stream is unchanged and failure is reported. -/
def OStream.sputc (s : OStream) (c : Nat) : OStream × Bool :=
  if s.pos < s.buf.length then
    ({ s with buf := s.buf.set s.pos c, pos := s.pos + 1 }, true)
  else if s.pos = s.buf.length && s.capOk then
    ({ s with buf := s.buf ++ [c], pos := s.pos + 1 }, true)
  else
    (s, false)

/-- Model of streambuf sputn: writes the bytes in order, stopping at
the first failure; returns the new stream and the number of bytes
actually accepted. -/
def OStream.sputn (s : OStream) (data : List Nat) : OStream × Nat :=
  match data with
  | [] => (s, 0)
  | c :: rest =>
    let r := s.sputc c
    if r.2 then
      let r2 := r.1.sputn rest
      (r2.1, r2.2 + 1)
    else
      (s, 0)

/-- The per-character loop of pushPosition: calls sputc the given
number of times, ignoring the success flag each time. -/
def OStream.putcLoop (s : OStream) (c : Nat) : Nat → OStream
  | 0 => s
  | n + 1 => ((s.sputc c).1).putcLoop c n

/-- Model of std::istream as used by the archive: a byte buffer and
the get position. -/
structure IStream where
  buf : List Nat
  pos : Nat
  deriving Repr, DecidableEq

/-- Model of streambuf sgetn: yields the next bytes, at most the
number remaining, advancing the position by the number yielded. -/
def IStream.sgetn (s : IStream) (n : Nat) : IStream × List Nat :=
  let k := min n (s.buf.length - s.pos)
  ({ s with pos := s.pos + k }, (s.buf.drop s.pos).take k)

/-- BinaryOutputArchive: the borrowed output stream and the private
position stack (head is the most recent marker). -/
structure BinaryOutputArchive where
  itsStream : OStream
  itsPositionStack : List Nat
  deriving Repr, DecidableEq

/-- saveBinary: writes the bytes through sputn and throws (Except
error) when the number accepted differs from the number requested. -/
def BinaryOutputArchive.saveBinary (ar : BinaryOutputArchive) (data : List Nat) :
    Except String BinaryOutputArchive :=
  let r := ar.itsStream.sputn data
  if r.2 = data.length then
    .ok { ar with itsStream := r.1 }
  else
    .error ("Failed to write " ++ toString data.length ++
      " bytes to output stream! Wrote " ++ toString r.2)

/-- pushPosition: pushes the current put position onto the stack, then
writes the given number of zero bytes one sputc at a time, ignoring
each success flag. -/
def BinaryOutputArchive.pushPosition (ar : BinaryOutputArchive) (size : Nat) :
    BinaryOutputArchive :=
  { itsStream := (ar.itsStream).putcLoop 0 size,
    itsPositionStack := ar.itsStream.pos :: ar.itsPositionStack }

/-- popPosition: with an empty stack, seeks to the end of the stream
and returns true; otherwise seeks to the top marker, pops it, and
returns false. -/
def BinaryOutputArchive.popPosition (ar : BinaryOutputArchive) :
    BinaryOutputArchive × Bool :=
  match ar.itsPositionStack with
  | [] =>
    ({ ar with itsStream := { ar.itsStream with pos := ar.itsStream.buf.length } }, true)
  | p :: rest =>
    ({ itsStream := { ar.itsStream with pos := p }, itsPositionStack := rest }, false)

/-- resetPosition: repeats popPosition until it returns true.  The
while loop of the source terminates because every false return pops
one marker; here that argument is the termination measure. -/
def BinaryOutputArchive.resetPosition (ar : BinaryOutputArchive) :
    BinaryOutputArchive :=
  match h : ar.popPosition with
  | (ar2, true) => ar2
  | (ar2, false) => ar2.resetPosition
termination_by ar.itsPositionStack.length
decreasing_by
  rcases hl : ar.itsPositionStack with _ | ⟨p, rest⟩
  · simp [BinaryOutputArchive.popPosition, hl] at h
  · simp only [BinaryOutputArchive.popPosition, hl, Prod.mk.injEq, and_true] at h
    subst h
    simp [hl]

/-- BinaryInputArchive: the borrowed input stream. -/
structure BinaryInputArchive where
  itsStream : IStream
  deriving Repr, DecidableEq

/-- loadBinary: reads the requested number of bytes through sgetn and
throws (Except error) when fewer were yielded. -/
def BinaryInputArchive.loadBinary (ar : BinaryInputArchive) (size : Nat) :
    Except String (List Nat × BinaryInputArchive) :=
  let r := ar.itsStream.sgetn size
  if (r.2).length = size then
    .ok (r.2, ⟨r.1⟩)
  else
    .error ("Failed to read " ++ toString size ++
      " bytes from input stream! Read " ++ toString (r.2).length)

/-- Scalar adapter, save side: an arithmetic value is its byte
representation; save hands exactly those sizeof(T) bytes to
saveBinary. -/
def save_arith (ar : BinaryOutputArchive) (t : List Nat) :
    Except String BinaryOutputArchive :=
  ar.saveBinary t

/-- Scalar adapter, load side: reads sizeof(T) bytes through
loadBinary; the bytes read are the new value of the variable. -/
def load_arith (ar : BinaryInputArchive) (size : Nat) :
    Except String (List Nat × BinaryInputArchive) :=
  ar.loadBinary size

/-- Array adapter, save side: the contiguous region of a fixed-size
array of arithmetic elements, written in one saveBinary call.  The
array is the list of the byte representations of its elements; the
contiguous region is their concatenation. -/
def save_array (ar : BinaryOutputArchive) (array : List (List Nat)) :
    Except String BinaryOutputArchive :=
  ar.saveBinary array.flatten

/-- Array adapter, load side: one loadBinary call of
elementCount * elementByteSize bytes. -/
def load_array (ar : BinaryInputArchive) (count elemSize : Nat) :
    Except String (List Nat × BinaryInputArchive) :=
  ar.loadBinary (count * elemSize)

/-- Element-by-element serialization with the scalar adapter, the
reference point of the array-adapter equivalence. -/
def saveElems (ar : BinaryOutputArchive) (elems : List (List Nat)) :
    Except String BinaryOutputArchive :=
  match elems with
  | [] => .ok ar
  | e :: rest =>
    match save_arith ar e with
    | .ok ar1 => saveElems ar1 rest
    | .error msg => .error msg

/-- Element-by-element deserialization with the scalar adapter,
returning the concatenation of the bytes read. -/
def loadElems (ar : BinaryInputArchive) (count elemSize : Nat) :
    Except String (List Nat × BinaryInputArchive) :=
  match count with
  | 0 => .ok ([], ar)
  | n + 1 =>
    match load_arith ar elemSize with
    | .ok (bytes, ar1) =>
      match loadElems ar1 n elemSize with
      | .ok (restBytes, ar2) => .ok (bytes ++ restBytes, ar2)
      | .error msg => .error msg
    | .error msg => .error msg

/-- Raw buffer descriptor BinaryData of declared element type T: the
type parameter is phantom, only the described bytes matter. -/
structure BinaryData (T : Type) where
  data : List Nat

/-- Buffer adapter, save side: writes exactly the described bytes. -/
def save_binary_data (T : Type) (ar : BinaryOutputArchive) (bd : BinaryData T) :
    Except String BinaryOutputArchive :=
  ar.saveBinary bd.data

/-- Buffer adapter, load side: reads exactly the described number of
bytes into the buffer. -/
def load_binary_data (T : Type) (ar : BinaryInputArchive) (size : Nat) :
    Except String (List Nat × BinaryInputArchive) :=
  ar.loadBinary size

/-- A freshly constructed writer over an empty unbounded sink. -/
def freshOutput : BinaryOutputArchive := ⟨⟨[], 0, none⟩, []⟩

/-- A reader over the given bytes, positioned at the start. -/
def inputOf (buf : List Nat) : BinaryInputArchive := ⟨⟨buf, 0⟩⟩

/-- Dropping past an appended first part of known length drops into
the second part. -/
theorem drop_append_add (a b : List Nat) (n k : Nat) (h : a.length = n) :
    (a ++ b).drop (n + k) = b.drop k := by
  subst h
  exact List.drop_append k

/-- On an unbounded sink, with the put position inside or at the end
of the buffer, sputn accepts every byte and splices the data over the
region it covers. -/
theorem OStream.sputn_none (data buf : List Nat) (pos : Nat) (h : pos ≤ buf.length) :
    OStream.sputn ⟨buf, pos, none⟩ data =
      (⟨buf.take pos ++ data ++ buf.drop (pos + data.length), pos + data.length, none⟩,
        data.length) := by
  induction data generalizing buf pos with
  | nil =>
    simp [OStream.sputn, List.take_append_drop]
  | cons c rest ih =>
    rcases Nat.lt_or_ge pos buf.length with hlt | hge
    · have hstep : OStream.sputc ⟨buf, pos, none⟩ c =
          (⟨buf.set pos c, pos + 1, none⟩, true) := by
        simp [OStream.sputc, hlt]
      have hset : buf.set pos c = (buf.take pos ++ [c]) ++ buf.drop (pos + 1) := by
        rw [List.set_eq_take_cons_drop c hlt]; simp
      have hlen : (buf.take pos ++ [c]).length = pos + 1 := by
        simp [List.length_take, Nat.min_eq_left h]
      have h2 : pos + 1 ≤ (buf.set pos c).length := by
        simp only [List.length_set]; omega
      simp only [OStream.sputn, hstep]
      rw [if_pos trivial]
      rw [ih _ _ h2]
      simp only [hset, Prod.mk.injEq, OStream.mk.injEq]
      refine ⟨⟨?_, by simp only [List.length_cons]; omega, trivial⟩,
        by simp only [List.length_cons]⟩
      rw [List.take_left' hlen, drop_append_add _ _ _ _ hlen]
      rw [List.drop_drop]
      simp [show pos + 1 + rest.length = pos + (rest.length + 1) by omega]
    · have hpos : pos = buf.length := le_antisymm h hge
      subst hpos
      have hstep : OStream.sputc ⟨buf, buf.length, none⟩ c =
          (⟨buf ++ [c], buf.length + 1, none⟩, true) := by
        simp [OStream.sputc, OStream.capOk]
      have h2 : buf.length + 1 ≤ (buf ++ [c]).length := by simp
      simp only [OStream.sputn, hstep]
      rw [if_pos trivial]
      rw [ih _ _ h2]
      simp only [Prod.mk.injEq, OStream.mk.injEq]
      refine ⟨⟨?_, by simp only [List.length_cons]; omega, trivial⟩,
        by simp only [List.length_cons]⟩
      rw [List.take_of_length_le (by simp), List.drop_eq_nil_of_le (by simp),
        List.drop_eq_nil_of_le (by omega), List.take_length]
      simp

/-- sputn never reports more bytes accepted than requested. -/
theorem OStream.sputn_le (s : OStream) (data : List Nat) :
    (s.sputn data).2 ≤ data.length := by
  induction data generalizing s with
  | nil => simp [OStream.sputn]
  | cons c rest ih =>
    simp only [OStream.sputn]
    split
    · simpa using ih _
    · simp

/-- On an unbounded sink, the zero-byte loop of pushPosition splices
that many zero bytes over the region it covers. -/
theorem OStream.putcLoop_none (n : Nat) (buf : List Nat) (pos : Nat) (h : pos ≤ buf.length) :
    OStream.putcLoop ⟨buf, pos, none⟩ 0 n =
      ⟨buf.take pos ++ List.replicate n 0 ++ buf.drop (pos + n), pos + n, none⟩ := by
  induction n generalizing buf pos with
  | zero => simp [OStream.putcLoop, List.take_append_drop]
  | succ m ih =>
    rcases Nat.lt_or_ge pos buf.length with hlt | hge
    · have hstep : OStream.sputc ⟨buf, pos, none⟩ 0 =
          (⟨buf.set pos 0, pos + 1, none⟩, true) := by
        simp [OStream.sputc, hlt]
      have hset : buf.set pos 0 = (buf.take pos ++ [0]) ++ buf.drop (pos + 1) := by
        rw [List.set_eq_take_cons_drop 0 hlt]; simp
      have hlen : (buf.take pos ++ [0]).length = pos + 1 := by
        simp [List.length_take, Nat.min_eq_left h]
      have h2 : pos + 1 ≤ (buf.set pos 0).length := by
        simp only [List.length_set]; omega
      simp only [OStream.putcLoop, hstep]
      rw [ih _ _ h2]
      simp only [hset, OStream.mk.injEq]
      refine ⟨?_, by omega, trivial⟩
      rw [List.take_left' hlen, drop_append_add _ _ _ _ hlen]
      rw [List.drop_drop]
      simp [List.replicate_succ, show pos + 1 + m = pos + (m + 1) by omega]
    · have hpos : pos = buf.length := le_antisymm h hge
      subst hpos
      have hstep : OStream.sputc ⟨buf, buf.length, none⟩ 0 =
          (⟨buf ++ [0], buf.length + 1, none⟩, true) := by
        simp [OStream.sputc, OStream.capOk]
      have h2 : buf.length + 1 ≤ (buf ++ [0]).length := by simp
      simp only [OStream.putcLoop, hstep]
      rw [ih _ _ h2]
      simp only [OStream.mk.injEq]
      refine ⟨?_, by omega, trivial⟩
      rw [List.take_of_length_le (by simp), List.drop_eq_nil_of_le (by simp),
        List.drop_eq_nil_of_le (by omega), List.take_length]
      simp [List.replicate_succ]

/-- Appending at the tail of an unbounded sink. -/
theorem OStream.sputn_tail (buf data : List Nat) :
    OStream.sputn ⟨buf, buf.length, none⟩ data =
      (⟨buf ++ data, buf.length + data.length, none⟩, data.length) := by
  rw [OStream.sputn_none data buf buf.length le_rfl]
  rw [List.take_length, List.drop_eq_nil_of_le (by omega)]
  simp

/-- Zero-byte reservation at the tail of an unbounded sink. -/
theorem OStream.putcLoop_tail (buf : List Nat) (n : Nat) :
    OStream.putcLoop ⟨buf, buf.length, none⟩ 0 n =
      ⟨buf ++ List.replicate n 0, buf.length + n, none⟩ := by
  rw [OStream.putcLoop_none n buf buf.length le_rfl]
  rw [List.take_length, List.drop_eq_nil_of_le (by omega)]
  simp

/-- Closed form of saveBinary on an unbounded sink: always succeeds
and splices the data at the put position. -/
theorem saveBinary_none (ar : BinaryOutputArchive) (data : List Nat)
    (hc : ar.itsStream.cap = none)
    (hp : ar.itsStream.pos ≤ ar.itsStream.buf.length) :
    ar.saveBinary data =
      .ok ⟨⟨ar.itsStream.buf.take ar.itsStream.pos ++ data ++
        ar.itsStream.buf.drop (ar.itsStream.pos + data.length),
        ar.itsStream.pos + data.length, none⟩, ar.itsPositionStack⟩ := by
  obtain ⟨⟨buf, pos, cap⟩, stk⟩ := ar
  simp only at hc hp
  subst hc
  simp [BinaryOutputArchive.saveBinary, OStream.sputn_none data buf pos hp]

/-- Closed form of saveBinary at the tail of an unbounded sink. -/
theorem saveBinary_tail (ar : BinaryOutputArchive) (data : List Nat)
    (hc : ar.itsStream.cap = none)
    (hp : ar.itsStream.pos = ar.itsStream.buf.length) :
    ar.saveBinary data =
      .ok ⟨⟨ar.itsStream.buf ++ data, ar.itsStream.buf.length + data.length, none⟩,
        ar.itsPositionStack⟩ := by
  rw [saveBinary_none ar data hc (by omega)]
  rw [hp, List.take_length, List.drop_eq_nil_of_le (by omega)]
  simp

/-- Closed form of loadBinary when enough bytes remain. -/
theorem loadBinary_ok (ar : BinaryInputArchive) (n : Nat)
    (h : ar.itsStream.pos + n ≤ ar.itsStream.buf.length) :
    ar.loadBinary n =
      .ok ((ar.itsStream.buf.drop ar.itsStream.pos).take n,
        ⟨⟨ar.itsStream.buf, ar.itsStream.pos + n⟩⟩) := by
  obtain ⟨⟨buf, pos⟩⟩ := ar
  simp only at h
  have hk : min n (buf.length - pos) = n := by omega
  have hlen : ((buf.drop pos).take n).length = n := by
    simp [List.length_take, List.length_drop]
    omega
  simp [BinaryInputArchive.loadBinary, IStream.sgetn, hk, hlen]

/-- loadBinary errors exactly when fewer than the requested bytes
remain before the end of the input. -/
theorem loadBinary_error_iff (ar : BinaryInputArchive) (n : Nat) :
    (∃ msg, ar.loadBinary n = .error msg) ↔
      ar.itsStream.buf.length - ar.itsStream.pos < n := by
  obtain ⟨⟨buf, pos⟩⟩ := ar
  have hlen : ((buf.drop pos).take (min n (buf.length - pos))).length =
      min n (buf.length - pos) := by
    simp [List.length_take, List.length_drop]
  simp only [BinaryInputArchive.loadBinary, IStream.sgetn, hlen]
  rcases Nat.lt_or_ge (buf.length - pos) n with hlt | hge
  · rw [if_neg (by omega)]
    exact ⟨fun _ => hlt, fun _ => ⟨_, rfl⟩⟩
  · rw [if_pos (by omega)]
    refine ⟨fun hx => ?_, fun hx => absurd hx (by omega)⟩
    rcases hx with ⟨msg, hmsg⟩
    exact Except.noConfusion hmsg

/-- saveBinary errors exactly when the sink accepts fewer bytes than
requested. -/
theorem saveBinary_error_iff (ar : BinaryOutputArchive) (data : List Nat) :
    (∃ msg, ar.saveBinary data = .error msg) ↔
      (ar.itsStream.sputn data).2 < data.length := by
  have hle := OStream.sputn_le ar.itsStream data
  constructor
  · rintro ⟨msg, hmsg⟩
    by_contra hge
    push_neg at hge
    have heq : (ar.itsStream.sputn data).2 = data.length := by omega
    simp [BinaryOutputArchive.saveBinary, heq] at hmsg
  · intro hlt
    have herr : ar.saveBinary data = .error ("Failed to write " ++
        toString data.length ++ " bytes to output stream! Wrote " ++
        toString (ar.itsStream.sputn data).2) := by
      simp only [BinaryOutputArchive.saveBinary]
      rw [if_neg (by omega)]
    exact ⟨_, herr⟩

/-- Writing two byte blocks in sequence on an unbounded sink is the
same as writing their concatenation in one call. -/
theorem saveBinary_append (ar : BinaryOutputArchive) (a b : List Nat)
    (hc : ar.itsStream.cap = none)
    (hp : ar.itsStream.pos ≤ ar.itsStream.buf.length) :
    ar.saveBinary (a ++ b) =
      (ar.saveBinary a).bind (fun ar2 => ar2.saveBinary b) := by
  rw [saveBinary_none ar (a ++ b) hc hp, saveBinary_none ar a hc hp]
  have hp2 : ar.itsStream.pos + a.length ≤
      (ar.itsStream.buf.take ar.itsStream.pos ++ a ++
        ar.itsStream.buf.drop (ar.itsStream.pos + a.length)).length := by
    simp [List.length_take]
    omega
  rw [Except.bind]
  rw [saveBinary_none _ b rfl hp2]
  simp only [Except.ok.injEq, BinaryOutputArchive.mk.injEq, OStream.mk.injEq]
  have hlen : (ar.itsStream.buf.take ar.itsStream.pos ++ a).length =
      ar.itsStream.pos + a.length := by
    simp [List.length_take]
    omega
  refine ⟨⟨?_, by simp only [List.length_append]; omega, trivial⟩, trivial⟩
  rw [show ar.itsStream.buf.take ar.itsStream.pos ++ a ++
      ar.itsStream.buf.drop (ar.itsStream.pos + a.length) =
      (ar.itsStream.buf.take ar.itsStream.pos ++ a) ++
      ar.itsStream.buf.drop (ar.itsStream.pos + a.length) by simp]
  rw [List.take_left' hlen, drop_append_add _ _ _ _ hlen, List.drop_drop]
  simp [show (a ++ b).length = a.length + b.length by simp,
    show ar.itsStream.pos + a.length + b.length = ar.itsStream.pos + (a.length + b.length) by omega]

/-- Zero-byte reservation at the tail, with the position given as any
expression equal to the buffer length. -/
theorem OStream.putcLoop_tail' (buf : List Nat) (n pos : Nat) (h : pos = buf.length) :
    OStream.putcLoop ⟨buf, pos, none⟩ 0 n =
      ⟨buf ++ List.replicate n 0, pos + n, none⟩ := by
  subst h
  exact OStream.putcLoop_tail buf n

/-- Element-by-element writes at the tail of an unbounded sink append
the concatenation of the elements, leave the position at the new tail
and do not touch the stack. -/
theorem saveElems_tail (elems : List (List Nat)) (ar : BinaryOutputArchive)
    (hc : ar.itsStream.cap = none)
    (hp : ar.itsStream.pos = ar.itsStream.buf.length) :
    saveElems ar elems =
      .ok ⟨⟨ar.itsStream.buf ++ elems.flatten,
        ar.itsStream.buf.length + elems.flatten.length, none⟩,
        ar.itsPositionStack⟩ := by
  induction elems generalizing ar with
  | nil =>
    obtain ⟨⟨buf, pos, cap⟩, stk⟩ := ar
    simp only at hc hp
    subst hc
    subst hp
    simp [saveElems]
  | cons e rest ih =>
    obtain ⟨⟨buf, pos, cap⟩, stk⟩ := ar
    simp only at hc hp
    subst hc
    subst hp
    have h1 : save_arith ⟨⟨buf, buf.length, none⟩, stk⟩ e =
        .ok ⟨⟨buf ++ e, buf.length + e.length, none⟩, stk⟩ :=
      saveBinary_tail _ e rfl rfl
    have h2 := ih ⟨⟨buf ++ e, buf.length + e.length, none⟩, stk⟩ rfl (by simp)
    simp only [saveElems, h1, h2, Except.ok.injEq, BinaryOutputArchive.mk.injEq,
      OStream.mk.injEq]
    refine ⟨⟨by simp, by simp; omega, trivial⟩, trivial⟩

/-- Element-by-element writes agree with one saveBinary call of the
concatenated bytes on an unbounded sink. -/
theorem saveElems_eq_saveBinary (elems : List (List Nat)) (ar : BinaryOutputArchive)
    (hc : ar.itsStream.cap = none)
    (hp : ar.itsStream.pos ≤ ar.itsStream.buf.length) :
    saveElems ar elems = ar.saveBinary elems.flatten := by
  induction elems generalizing ar with
  | nil =>
    obtain ⟨⟨buf, pos, cap⟩, stk⟩ := ar
    simp only at hc hp
    subst hc
    simp only [List.flatten_nil]
    rw [saveBinary_none ⟨⟨buf, pos, none⟩, stk⟩ [] rfl hp]
    simp [saveElems, List.take_append_drop]
  | cons e rest ih =>
    have h1 := saveBinary_none ar e hc hp
    have hp2 : ar.itsStream.pos + e.length ≤
        (ar.itsStream.buf.take ar.itsStream.pos ++ e ++
          ar.itsStream.buf.drop (ar.itsStream.pos + e.length)).length := by
      simp [List.length_take]
      omega
    have h2 := ih ⟨⟨ar.itsStream.buf.take ar.itsStream.pos ++ e ++
        ar.itsStream.buf.drop (ar.itsStream.pos + e.length),
        ar.itsStream.pos + e.length, none⟩, ar.itsPositionStack⟩ rfl hp2
    rw [show (e :: rest).flatten = e ++ rest.flatten from rfl,
      saveBinary_append ar e rest.flatten hc hp]
    simp only [saveElems, save_arith, h1, h2]
    rfl

/-- Closed form of element-by-element reads when enough bytes remain:
the concatenation of the chunks is the same contiguous region a
single read of the whole size yields. -/
theorem loadElems_ok (count esz : Nat) (ar : BinaryInputArchive)
    (h : ar.itsStream.pos + count * esz ≤ ar.itsStream.buf.length) :
    loadElems ar count esz =
      .ok ((ar.itsStream.buf.drop ar.itsStream.pos).take (count * esz),
        ⟨⟨ar.itsStream.buf, ar.itsStream.pos + count * esz⟩⟩) := by
  induction count generalizing ar with
  | zero =>
    obtain ⟨⟨buf, pos⟩⟩ := ar
    simp [loadElems]
  | succ m ih =>
    obtain ⟨⟨buf, pos⟩⟩ := ar
    simp only at h
    rw [Nat.succ_mul] at h
    have hload : load_arith ⟨⟨buf, pos⟩⟩ esz =
        .ok ((buf.drop pos).take esz, ⟨⟨buf, pos + esz⟩⟩) :=
      loadBinary_ok ⟨⟨buf, pos⟩⟩ esz (by simp only; omega)
    have hrest := ih ⟨⟨buf, pos + esz⟩⟩ (by simp only; omega)
    simp only [loadElems, hload, hrest, Except.ok.injEq, Prod.mk.injEq,
      BinaryInputArchive.mk.injEq, IStream.mk.injEq]
    refine ⟨?_, trivial, by rw [Nat.succ_mul]; omega⟩
    rw [show buf.drop (pos + esz) = (buf.drop pos).drop esz by rw [List.drop_drop]]
    rw [← List.take_add]
    rw [show esz + m * esz = (m + 1) * esz by rw [Nat.succ_mul]; omega]

/-- The flattened length of a list of equal-length byte blocks. -/
theorem flatten_length_uniform (elems : List (List Nat)) (esz : Nat)
    (he : ∀ e ∈ elems, e.length = esz) :
    elems.flatten.length = elems.length * esz := by
  induction elems with
  | nil => simp
  | cons e rest ih =>
    have h1 : e.length = esz := he e (by simp)
    have h2 := ih (fun x hx => he x (by simp [hx]))
    simp only [List.flatten_cons, List.length_append, List.length_cons, h1, h2,
      Nat.succ_mul]
    omega

/-- Claim C1: serializing any arithmetic scalar value (modelled by its
in-memory byte representation of length sizeof(T)) with the binary
output archive scalar save and deserializing into a fresh variable of
the same type with the binary input archive scalar load yields a
bit-identical value: the bytes read equal the bytes written. -/
theorem claim_C1_scalar_roundtrip (v : List Nat) :
    ∃ w : BinaryOutputArchive,
      save_arith freshOutput v = .ok w ∧
      load_arith (inputOf w.itsStream.buf) v.length = .ok (v, ⟨⟨v, v.length⟩⟩) := by
  refine ⟨⟨⟨v, v.length, none⟩, []⟩, ?_, ?_⟩
  · have h := saveBinary_tail freshOutput v rfl rfl
    simpa [freshOutput, save_arith] using h
  · have h := loadBinary_ok (inputOf v) v.length (by simp [inputOf])
    simpa [inputOf, load_arith] using h

/-- Claim C3: saveBinary throws exactly when the sink accepts fewer
than the requested bytes, and loadBinary throws exactly when the
source yields fewer than the requested bytes; both archives are pure
functions of the state, so the failures are deterministic and never
silently truncating. -/
theorem claim_C3_short_io_detection :
    (∀ (ar : BinaryOutputArchive) (data : List Nat),
        (∃ msg, ar.saveBinary data = .error msg) ↔
          (ar.itsStream.sputn data).2 < data.length) ∧
    (∀ (ar : BinaryInputArchive) (n : Nat),
        (∃ msg, ar.loadBinary n = .error msg) ↔
          ar.itsStream.buf.length - ar.itsStream.pos < n) :=
  ⟨saveBinary_error_iff, loadBinary_error_iff⟩

/-- Claim C5: pushPosition records the pre-call put position as the
new top of the position stack, then writes exactly the requested
number of zero bytes over the region starting there, leaving the put
position advanced past the reserved region and the rest of the stream
content unchanged (stated for a sink that accepts the bytes:
unbounded capacity, position inside the stream). -/
theorem claim_C5_pushPosition_spec (ar : BinaryOutputArchive) (s : Nat)
    (hc : ar.itsStream.cap = none)
    (hp : ar.itsStream.pos ≤ ar.itsStream.buf.length) :
    (ar.pushPosition s).itsPositionStack = ar.itsStream.pos :: ar.itsPositionStack ∧
    (ar.pushPosition s).itsStream.pos = ar.itsStream.pos + s ∧
    (ar.pushPosition s).itsStream.buf =
      ar.itsStream.buf.take ar.itsStream.pos ++ List.replicate s 0 ++
        ar.itsStream.buf.drop (ar.itsStream.pos + s) := by
  obtain ⟨⟨buf, pos, cap⟩, stk⟩ := ar
  simp only at hc hp
  subst hc
  simp [BinaryOutputArchive.pushPosition, OStream.putcLoop_none s buf pos hp]

/-- Witness for claim C5 at a concrete writer. -/
theorem claim_C5_pushPosition_spec_witness :
    ((⟨⟨[1, 2], 2, none⟩, []⟩ : BinaryOutputArchive).pushPosition 3).itsPositionStack =
      2 :: [] ∧
    ((⟨⟨[1, 2], 2, none⟩, []⟩ : BinaryOutputArchive).pushPosition 3).itsStream.pos =
      2 + 3 ∧
    ((⟨⟨[1, 2], 2, none⟩, []⟩ : BinaryOutputArchive).pushPosition 3).itsStream.buf =
      ([1, 2] : List Nat).take 2 ++ List.replicate 3 0 ++ ([1, 2] : List Nat).drop (2 + 3) :=
  claim_C5_pushPosition_spec ⟨⟨[1, 2], 2, none⟩, []⟩ 3 rfl (by decide)

/-- Claim C6: with a non-empty stack, popPosition seeks the stream to
the most recently pushed marker, pops it and returns false, leaving
every stream byte unchanged; with an empty stack it seeks to the end
of the stream and returns true, leaving the stack empty. -/
theorem claim_C6_popPosition_spec (ar : BinaryOutputArchive) :
    (∀ p rest, ar.itsPositionStack = p :: rest →
      (ar.popPosition).2 = false ∧
      (ar.popPosition).1.itsStream.pos = p ∧
      (ar.popPosition).1.itsPositionStack = rest ∧
      (ar.popPosition).1.itsStream.buf = ar.itsStream.buf) ∧
    (ar.itsPositionStack = [] →
      (ar.popPosition).2 = true ∧
      (ar.popPosition).1.itsStream.pos = ar.itsStream.buf.length ∧
      (ar.popPosition).1.itsPositionStack = [] ∧
      (ar.popPosition).1.itsStream.buf = ar.itsStream.buf) := by
  constructor
  · intro p rest hst
    simp [BinaryOutputArchive.popPosition, hst]
  · intro hst
    simp [BinaryOutputArchive.popPosition, hst]

/-- Witness for claim C6 at concrete writers in both branches. -/
theorem claim_C6_popPosition_spec_witness :
    (((⟨⟨[7, 8], 2, none⟩, [0]⟩ : BinaryOutputArchive).popPosition).1.itsStream.pos = 0 ∧
      ((⟨⟨[7, 8], 2, none⟩, [0]⟩ : BinaryOutputArchive).popPosition).2 = false) ∧
    (((⟨⟨[7, 8], 0, none⟩, []⟩ : BinaryOutputArchive).popPosition).1.itsStream.pos = 2 ∧
      ((⟨⟨[7, 8], 0, none⟩, []⟩ : BinaryOutputArchive).popPosition).2 = true) :=
  ⟨⟨((claim_C6_popPosition_spec ⟨⟨[7, 8], 2, none⟩, [0]⟩).1 0 [] rfl).2.1,
    ((claim_C6_popPosition_spec ⟨⟨[7, 8], 2, none⟩, [0]⟩).1 0 [] rfl).1⟩,
    ⟨((claim_C6_popPosition_spec ⟨⟨[7, 8], 0, none⟩, []⟩).2 rfl).2.1,
    ((claim_C6_popPosition_spec ⟨⟨[7, 8], 0, none⟩, []⟩).2 rfl).1⟩⟩

/-- Claim C8: writing any raw buffer descriptor through the
binary-data adapter and reading it back reproduces all its bytes
exactly; the declared element types of the descriptors (T on the
write side, U on the read side) are phantom and play no role. -/
theorem claim_C8_binary_data_roundtrip (T U : Type) (bd : BinaryData T) :
    ∃ w : BinaryOutputArchive,
      save_binary_data T freshOutput bd = .ok w ∧
      load_binary_data U (inputOf w.itsStream.buf) bd.data.length =
        .ok (bd.data, ⟨⟨bd.data, bd.data.length⟩⟩) := by
  refine ⟨⟨⟨bd.data, bd.data.length, none⟩, []⟩, ?_, ?_⟩
  · have h := saveBinary_tail freshOutput bd.data rfl rfl
    simpa [freshOutput, save_binary_data] using h
  · have h := loadBinary_ok (inputOf bd.data) bd.data.length (by simp [inputOf])
    simpa [inputOf, load_binary_data] using h

/-- Claim C10: pushPosition has no error outcome (its result type,
like the source, carries no exception: the per-character sputc
results are ignored): the stack push always happens, and on a sink
that accepts no byte the requested zero byte is silently dropped
while saveBinary of the same data on the same state throws. -/
theorem claim_C10_pushPosition_silent_short_write :
    (∀ (ar : BinaryOutputArchive) (s : Nat),
      (ar.pushPosition s).itsPositionStack =
        ar.itsStream.pos :: ar.itsPositionStack) ∧
    ((⟨⟨[], 0, some 0⟩, []⟩ : BinaryOutputArchive).pushPosition 1).itsStream.buf = [] ∧
    ((⟨⟨[], 0, some 0⟩, []⟩ : BinaryOutputArchive).pushPosition 1).itsPositionStack = [0] ∧
    (∃ msg, (⟨⟨[], 0, some 0⟩, []⟩ : BinaryOutputArchive).saveBinary
      (List.replicate 1 0) = .error msg) := by
  refine ⟨fun ar s => rfl, by rfl, by rfl, ⟨_, by rfl⟩⟩

/-- One unfolding step of resetPosition. -/
theorem resetPosition_unfold (ar : BinaryOutputArchive) :
    ar.resetPosition =
      (if (ar.popPosition).2 then (ar.popPosition).1
       else (ar.popPosition).1.resetPosition) := by
  rw [BinaryOutputArchive.resetPosition]
  rcases h : ar.popPosition with ⟨ar2, b⟩
  cases b <;> simp

/-- resetPosition empties the stack and leaves the stream positioned
at its end, whatever the starting stack. -/
theorem resetPosition_spec (l : List Nat) :
    ∀ ar : BinaryOutputArchive, ar.itsPositionStack = l →
      (ar.resetPosition).itsPositionStack = [] ∧
      (ar.resetPosition).itsStream.buf = ar.itsStream.buf ∧
      (ar.resetPosition).itsStream.pos = ar.itsStream.buf.length := by
  induction l with
  | nil =>
    intro ar hl
    rw [resetPosition_unfold]
    simp [BinaryOutputArchive.popPosition, hl]
  | cons p rest ih =>
    intro ar hl
    rw [resetPosition_unfold]
    have hpop : ar.popPosition =
        (⟨⟨ar.itsStream.buf, p, ar.itsStream.cap⟩, rest⟩, false) := by
      obtain ⟨⟨buf, pos, cap⟩, stk⟩ := ar
      simp only at hl
      subst hl
      simp [BinaryOutputArchive.popPosition]
    rw [hpop]
    have h2 := ih ⟨⟨ar.itsStream.buf, p, ar.itsStream.cap⟩, rest⟩ rfl
    simpa using h2

/-- Claim C9: resetPosition terminates on every writer state (it is a
total function of the state; the measure is the stack length), and on
return the position stack is empty and the stream is positioned at
its end, with the bytes unchanged. -/
theorem claim_C9_resetPosition_drains (ar : BinaryOutputArchive) :
    (ar.resetPosition).itsPositionStack = [] ∧
    (ar.resetPosition).itsStream.buf = ar.itsStream.buf ∧
    (ar.resetPosition).itsStream.pos = ar.itsStream.buf.length :=
  resetPosition_spec ar.itsPositionStack ar rfl

/-- Claim C4: after pushing three markers from the tail with no
intervening pops, three successive popPosition calls seek to the
markers in reverse push order, each returning false, and a fourth
call returns true and positions the stream at the tail. -/
theorem claim_C4_stack_lifo (buf : List Nat) (s1 s2 s3 : Nat)
    (w3 : BinaryOutputArchive)
    (hw : (((⟨⟨buf, buf.length, none⟩, []⟩ :
        BinaryOutputArchive).pushPosition s1).pushPosition s2).pushPosition s3 = w3) :
    (w3.popPosition).2 = false ∧
    (w3.popPosition).1.itsStream.pos = buf.length + s1 + s2 ∧
    ((w3.popPosition).1.popPosition).2 = false ∧
    ((w3.popPosition).1.popPosition).1.itsStream.pos = buf.length + s1 ∧
    (((w3.popPosition).1.popPosition).1.popPosition).2 = false ∧
    (((w3.popPosition).1.popPosition).1.popPosition).1.itsStream.pos = buf.length ∧
    ((((w3.popPosition).1.popPosition).1.popPosition).1.popPosition).2 = true ∧
    ((((w3.popPosition).1.popPosition).1.popPosition).1.popPosition).1.itsStream.pos =
      buf.length + s1 + s2 + s3 ∧
    ((((w3.popPosition).1.popPosition).1.popPosition).1.popPosition).1.itsPositionStack
      = [] := by
  have h1 : (⟨⟨buf, buf.length, none⟩, []⟩ : BinaryOutputArchive).pushPosition s1 =
      ⟨⟨buf ++ List.replicate s1 0, buf.length + s1, none⟩, [buf.length]⟩ := by
    simp only [BinaryOutputArchive.pushPosition]
    rw [OStream.putcLoop_tail' buf s1 buf.length rfl]
  have h2 : (⟨⟨buf ++ List.replicate s1 0, buf.length + s1, none⟩, [buf.length]⟩ :
      BinaryOutputArchive).pushPosition s2 =
      ⟨⟨(buf ++ List.replicate s1 0) ++ List.replicate s2 0,
        buf.length + s1 + s2, none⟩, [buf.length + s1, buf.length]⟩ := by
    simp only [BinaryOutputArchive.pushPosition]
    rw [OStream.putcLoop_tail' _ s2 _ (by simp)]
  have h3 : (⟨⟨(buf ++ List.replicate s1 0) ++ List.replicate s2 0,
      buf.length + s1 + s2, none⟩, [buf.length + s1, buf.length]⟩ :
      BinaryOutputArchive).pushPosition s3 =
      ⟨⟨((buf ++ List.replicate s1 0) ++ List.replicate s2 0) ++ List.replicate s3 0,
        buf.length + s1 + s2 + s3, none⟩,
        [buf.length + s1 + s2, buf.length + s1, buf.length]⟩ := by
    simp only [BinaryOutputArchive.pushPosition]
    rw [OStream.putcLoop_tail' _ s3 _ (by simp; omega)]
  rw [h1, h2, h3] at hw
  subst hw
  simp [BinaryOutputArchive.popPosition]
  omega

/-- Witness for claim C4 at a concrete writer and sizes. -/
theorem claim_C4_stack_lifo_witness :
    (((((⟨⟨[5], ([5] : List Nat).length, none⟩, []⟩ :
        BinaryOutputArchive).pushPosition 1).pushPosition 2).pushPosition
        0).popPosition).2 = false ∧
    (((((⟨⟨[5], ([5] : List Nat).length, none⟩, []⟩ :
        BinaryOutputArchive).pushPosition 1).pushPosition 2).pushPosition
        0).popPosition).1.itsStream.pos = ([5] : List Nat).length + 1 + 2 :=
  ⟨(claim_C4_stack_lifo [5] 1 2 0 _ rfl).1,
    (claim_C4_stack_lifo [5] 1 2 0 _ rfl).2.1⟩

/-- Claim C7: the array adapter writes (reads) the entire contiguous
region of a fixed-size array of arithmetic elements, namely
elementCount * elementByteSize bytes, in a single saveBinary
(loadBinary) call, and the resulting stream content and final state
equal those of element-by-element serialization with the scalar
adapter (writer on an unbounded sink with the position in range;
reader with enough bytes remaining). -/
theorem claim_C7_array_adapter_equiv (ar : BinaryOutputArchive)
    (elems : List (List Nat)) (esz : Nat) (rd : BinaryInputArchive)
    (hc : ar.itsStream.cap = none)
    (hp : ar.itsStream.pos ≤ ar.itsStream.buf.length)
    (he : ∀ e ∈ elems, e.length = esz)
    (hr : rd.itsStream.pos + elems.length * esz ≤ rd.itsStream.buf.length) :
    elems.flatten.length = elems.length * esz ∧
    save_array ar elems = ar.saveBinary elems.flatten ∧
    save_array ar elems = saveElems ar elems ∧
    load_array rd elems.length esz = rd.loadBinary (elems.length * esz) ∧
    load_array rd elems.length esz = loadElems rd elems.length esz := by
  refine ⟨flatten_length_uniform elems esz he, rfl, ?_, rfl, ?_⟩
  · rw [show save_array ar elems = ar.saveBinary elems.flatten from rfl,
      ← saveElems_eq_saveBinary elems ar hc hp]
  · rw [show load_array rd elems.length esz =
      rd.loadBinary (elems.length * esz) from rfl]
    rw [loadBinary_ok rd (elems.length * esz) hr,
      loadElems_ok elems.length esz rd hr]

/-- Witness for claim C7 on a concrete two-element array of two-byte
elements. -/
theorem claim_C7_array_adapter_equiv_witness :
    save_array freshOutput [[1, 2], [3, 4]] = saveElems freshOutput [[1, 2], [3, 4]] ∧
    load_array (inputOf [9, 9, 9, 9]) ([[1, 2], [3, 4]] : List (List Nat)).length 2 =
      loadElems (inputOf [9, 9, 9, 9]) ([[1, 2], [3, 4]] : List (List Nat)).length 2 :=
  ⟨(claim_C7_array_adapter_equiv freshOutput [[1, 2], [3, 4]] 2 (inputOf [9, 9, 9, 9])
      rfl (by decide) (by decide) (by decide)).2.2.1,
    (claim_C7_array_adapter_equiv freshOutput [[1, 2], [3, 4]] 2 (inputOf [9, 9, 9, 9])
      rfl (by decide) (by decide) (by decide)).2.2.2.2⟩

/-- Claim C2: reserving a placeholder of size s at the tail of the
stream, performing a sequence of intervening writes, returning to the
mark with popPosition, overwriting the reserved bytes with the final
value via saveBinary, then seeking to the tail (popPosition on the
now-empty stack) leaves a stream whose reserved region holds exactly
the final value and whose total length is the sum of the lengths of
all writes: no truncation, no duplication. -/
theorem claim_C2_placeholder_patch (B : List Nat) (s : Nat) (ws : List (List Nat))
    (final : List Nat) (hf : final.length = s) :
    ∃ w2 : BinaryOutputArchive,
      saveElems ((⟨⟨B, B.length, none⟩, []⟩ :
          BinaryOutputArchive).pushPosition s) ws = .ok w2 ∧
      (w2.popPosition).2 = false ∧
      ∃ w4 : BinaryOutputArchive,
        (w2.popPosition).1.saveBinary final = .ok w4 ∧
        (w4.popPosition).2 = true ∧
        (w4.popPosition).1.itsStream.buf = B ++ final ++ ws.flatten ∧
        ((w4.popPosition).1.itsStream.buf.drop B.length).take s = final ∧
        (w4.popPosition).1.itsStream.buf.length =
          B.length + s + (ws.map List.length).sum ∧
        (w4.popPosition).1.itsStream.pos =
          B.length + s + (ws.map List.length).sum := by
  have hpush : (⟨⟨B, B.length, none⟩, []⟩ :
      BinaryOutputArchive).pushPosition s =
      ⟨⟨B ++ List.replicate s 0, B.length + s, none⟩, [B.length]⟩ := by
    simp only [BinaryOutputArchive.pushPosition]
    rw [OStream.putcLoop_tail' B s B.length rfl]
  have hsv : saveElems ⟨⟨B ++ List.replicate s 0, B.length + s, none⟩,
      [B.length]⟩ ws =
      .ok ⟨⟨(B ++ List.replicate s 0) ++ ws.flatten,
        B.length + s + ws.flatten.length, none⟩, [B.length]⟩ := by
    have h := saveElems_tail ws ⟨⟨B ++ List.replicate s 0, B.length + s, none⟩,
      [B.length]⟩ rfl (by simp)
    simpa using h
  rw [hpush]
  refine ⟨_, hsv, ?_, ?_⟩
  · simp [BinaryOutputArchive.popPosition]
  · have hpop1 : (⟨⟨(B ++ List.replicate s 0) ++ ws.flatten,
        B.length + s + ws.flatten.length, none⟩, [B.length]⟩ :
        BinaryOutputArchive).popPosition =
        (⟨⟨(B ++ List.replicate s 0) ++ ws.flatten, B.length, none⟩, []⟩, false) := by
      simp [BinaryOutputArchive.popPosition]
    rw [hpop1]
    have hsave4 : (⟨⟨(B ++ List.replicate s 0) ++ ws.flatten, B.length, none⟩, []⟩ :
        BinaryOutputArchive).saveBinary final =
        .ok ⟨⟨B ++ final ++ ws.flatten, B.length + s, none⟩, []⟩ := by
      rw [saveBinary_none _ final rfl (by simp)]
      simp only [Except.ok.injEq, BinaryOutputArchive.mk.injEq, OStream.mk.injEq]
      refine ⟨⟨?_, by omega, trivial⟩, trivial⟩
      rw [hf, List.append_assoc B (List.replicate s 0) ws.flatten, List.take_left,
        drop_append_add B _ B.length s rfl, List.drop_left' (by simp)]
    refine ⟨_, hsave4, ?_, ?_, ?_, ?_, ?_⟩
    · simp [BinaryOutputArchive.popPosition]
    · simp [BinaryOutputArchive.popPosition]
    · simp only [BinaryOutputArchive.popPosition]
      rw [List.append_assoc B final ws.flatten, List.drop_left,
        List.take_left' hf]
    · simp [BinaryOutputArchive.popPosition, List.length_flatten, hf]
      omega
    · simp [BinaryOutputArchive.popPosition, List.length_flatten, hf]
      omega

/-- Witness for claim C2 with a one-byte stream prefix, a two-byte
placeholder, two intervening writes and a two-byte final value. -/
theorem claim_C2_placeholder_patch_witness :
    ∃ w2 : BinaryOutputArchive,
      saveElems ((⟨⟨[1], ([1] : List Nat).length, none⟩, []⟩ :
          BinaryOutputArchive).pushPosition 2) [[5], [6, 7]] = .ok w2 ∧
      (w2.popPosition).2 = false ∧
      ∃ w4 : BinaryOutputArchive,
        (w2.popPosition).1.saveBinary [9, 9] = .ok w4 ∧
        (w4.popPosition).2 = true ∧
        (w4.popPosition).1.itsStream.buf =
          [1] ++ [9, 9] ++ ([[5], [6, 7]] : List (List Nat)).flatten ∧
        ((w4.popPosition).1.itsStream.buf.drop ([1] : List Nat).length).take 2 =
          [9, 9] ∧
        (w4.popPosition).1.itsStream.buf.length =
          ([1] : List Nat).length + 2 +
            (([[5], [6, 7]] : List (List Nat)).map List.length).sum ∧
        (w4.popPosition).1.itsStream.pos =
          ([1] : List Nat).length + 2 +
            (([[5], [6, 7]] : List (List Nat)).map List.length).sum :=
  claim_C2_placeholder_patch [1] 2 [[5], [6, 7]] [9, 9] (by decide)

end Cereal
